import Mathlib

/-!
Verification of the ComplianceGPT frontend streaming core.

The development shallowly embeds the two components the specification calls
StreamDecoder and StreamingSessionReducer:

* `splitSep`, `processLine`, `processLines`, `stepChunk`, `decodeLoop`,
  `decodeStream` embed `submitQueryStream` from `src/frontend/src/lib/api.ts`
  (lines 108-179): the buffer is split on the record separator `"\n\n"`,
  the trailing remainder is kept, every closed segment is examined for the
  `"data: "` marker, the `"[DONE]"` literal or a structured record with
  discriminant `done` ends decoding at once, and end of transport emits a
  synthetic completion event.  `JSON.parse` is external to the repository and
  is therefore a parameter `parse : Str → Option SseRec` (`none` models a
  parse exception, `SseRec.other` a structured record whose `type` is none of
  the four discriminants).

* `handleSend`, `applyMetadata`, `applyToken`, `applyError`, `applyComplete`,
  `applyEvent`, `runStream`, `handleKeyDown`, `handleSuggestionClick`,
  `sendButtonDisabled`, `sendButtonClick` embed the `ChatWorkspace` component
  from `src/frontend/src/components/ChatWorkspace.tsx`: component state is
  `WState`, the per-call closure flag `assistantCreated.current` is the
  boolean carried next to the state, and each stream callback is a pure
  state transformer.

Strings are modelled as lists of characters (`Str`); the byte level is
handled in the source by `TextDecoder` in streaming mode, so chunk
concatenation at the character level is faithful to byte-chunk reassembly.
Floating similarity scores are carried opaquely (they are only stored and
copied, never computed with), modelled as `Int`.
-/

namespace ComplianceGPT

/-- Characters lists stand for JS strings. -/
abbrev Str := List Char

/-- The whitespace test backing JS `String.prototype.trim` (the characters
relevant to this protocol). -/
def isJsSpace (c : Char) : Bool :=
  c = ' ' || c = '\n' || c = '\t' || c = '\r'

/-- JS `s.trim()`. -/
def jsTrim (s : Str) : Str :=
  ((s.dropWhile isJsSpace).reverse.dropWhile isJsSpace).reverse

/-- JS `a || b` on an optional string, where `undefined` and the empty
string are falsy. -/
def jsOrStr (a : Option Str) (b : Str) : Str :=
  match a with
  | none => b
  | some s => if s = [] then b else s

/-- The record separator of the stream protocol: a double line break,
`'\n\n'` in `api.ts` line 146. -/
def sep : Str := ['\n', '\n']

/-- JS `buffer.split('\n\n')` (api.ts line 146): leftmost, non-overlapping
occurrences of the separator cut the string; the result always has at least
one element. -/
def splitSep : Str → List Str
  | [] => [[]]
  | [c] => [[c]]
  | c1 :: c2 :: rest =>
    if c1 = '\n' ∧ c2 = '\n' then
      [] :: splitSep rest
    else
      match splitSep (c2 :: rest) with
      | [] => [[c1]]
      | h :: t => (c1 :: h) :: t

/-- The closed-segments / remainder view of `splitSep`: the first component
collects every complete segment preceding the last, the second is the
trailing remainder (the new buffer, api.ts line 147). -/
def splitStep : Str → List Str × Str
  | [] => ([], [])
  | [c] => ([], [c])
  | c1 :: c2 :: rest =>
    if c1 = '\n' ∧ c2 = '\n' then
      let p := splitStep rest
      ([] :: p.1, p.2)
    else
      match splitStep (c2 :: rest) with
      | ([], r) => ([], c1 :: r)
      | (s :: ss, r) => ((c1 :: s) :: ss, r)

/-- Induction on a character list that steps over one or two characters,
following the recursion pattern of `splitSep`. -/
theorem twoStep_induction {α : Type} {motive : List α → Prop} (h0 : motive [])
    (h1 : ∀ c, motive [c])
    (h2 : ∀ c1 c2 rest, motive rest → motive (c2 :: rest) →
      motive (c1 :: c2 :: rest)) :
    ∀ s, motive s
  | [] => h0
  | [c] => h1 c
  | c1 :: c2 :: rest =>
    h2 c1 c2 rest (twoStep_induction h0 h1 h2 rest)
      (twoStep_induction h0 h1 h2 (c2 :: rest))

theorem splitStep_two (c1 c2 : Char) (rest : Str) :
    splitStep (c1 :: c2 :: rest) =
      if c1 = '\n' ∧ c2 = '\n' then
        (([] : Str) :: (splitStep rest).1, (splitStep rest).2)
      else
        match splitStep (c2 :: rest) with
        | ([], r) => ([], c1 :: r)
        | (s :: ss, r) => ((c1 :: s) :: ss, r) := by
  rw [splitStep]

/-- The full split is the closed segments followed by the remainder. -/
theorem splitSep_eq_splitStep (s : Str) :
    splitSep s = (splitStep s).1 ++ [(splitStep s).2] := by
  induction s using twoStep_induction with
  | h0 => rfl
  | h1 c => rfl
  | h2 c1 c2 rest ih1 ih2 =>
    rw [splitSep, splitStep_two]
    by_cases h : c1 = '\n' ∧ c2 = '\n'
    · simp only [if_pos h, ih1]
      rfl
    · simp only [if_neg h]
      rcases hs : splitStep (c2 :: rest) with ⟨segs, r⟩
      cases segs with
      | nil => simp [ih2, hs]
      | cons a as => simp [ih2, hs]

/-- When no segment is closed, the remainder is the whole input. -/
theorem splitStep_fst_nil : ∀ s : Str, (splitStep s).1 = [] → (splitStep s).2 = s := by
  intro s
  induction s using twoStep_induction with
  | h0 => intro; rfl
  | h1 c => intro; rfl
  | h2 c1 c2 rest ih1 ih2 =>
    rw [splitStep_two]
    by_cases h : c1 = '\n' ∧ c2 = '\n'
    · simp [if_pos h]
    · simp only [if_neg h]
      rcases hs : splitStep (c2 :: rest) with ⟨segs, r⟩
      cases segs with
      | nil =>
        intro
        have := ih2
        rw [hs] at this
        simpa using congrArg (c1 :: ·) (this rfl)
      | cons a as => simp

/-- Splitting a concatenation: the closed segments of `s` are closed in
`s ++ t`, and splitting resumes on the remainder of `s` glued to `t`.  This
is the heart of chunk-boundary independence. -/
theorem splitStep_append (s t : Str) :
    splitStep (s ++ t) =
      ((splitStep s).1 ++ (splitStep ((splitStep s).2 ++ t)).1,
        (splitStep ((splitStep s).2 ++ t)).2) := by
  induction s using twoStep_induction with
  | h0 => simp [splitStep]
  | h1 c => simp [splitStep]
  | h2 c1 c2 rest ih1 ih2 =>
    by_cases h : c1 = '\n' ∧ c2 = '\n'
    · obtain ⟨hc1, hc2⟩ := h
      subst hc1; subst hc2
      have lhs : splitStep (('\n' :: '\n' :: rest) ++ t) =
          (([] : Str) :: (splitStep (rest ++ t)).1, (splitStep (rest ++ t)).2) := by
        rw [List.cons_append, List.cons_append, splitStep_two]
        simp
      rw [lhs, ih1, splitStep_two]
      simp
    · have hsrc := splitStep_two c1 c2 rest
      rw [if_neg h] at hsrc
      have htgt := splitStep_two c1 c2 (rest ++ t)
      rw [if_neg h] at htgt
      rcases hs : splitStep (c2 :: rest) with ⟨segs, r⟩
      cases segs with
      | nil =>
        have hr : r = c2 :: rest := by
          have h5 := splitStep_fst_nil (c2 :: rest)
          rw [hs] at h5
          simpa using h5 rfl
        have hsrc2 : splitStep (c1 :: c2 :: rest) = ([], c1 :: r) := by
          rw [hsrc, hs]
        simp only [List.cons_append]
        rw [hsrc2, hr]
        simp
      | cons a as =>
        have hsrc2 : splitStep (c1 :: c2 :: rest) = ((c1 :: a) :: as, r) := by
          rw [hsrc, hs]
        have ht2 : splitStep (c2 :: (rest ++ t)) =
            (a :: (as ++ (splitStep (r ++ t)).1), (splitStep (r ++ t)).2) := by
          simp only [List.cons_append] at ih2
          rw [ih2, hs]
          simp
        have htgt2 : splitStep (c1 :: c2 :: (rest ++ t)) =
            ((c1 :: a) :: (as ++ (splitStep (r ++ t)).1),
              (splitStep (r ++ t)).2) := by
          rw [htgt, ht2]
        simp only [List.cons_append]
        rw [htgt2, hsrc2]
        simp

/-- One retrieved evidence passage (`RetrievedChunk` in api.ts lines 1-5).
The floating similarity score is only stored and copied, never computed
with, so it is carried as an opaque integer code. -/
structure RetrievedChunk where
  chunk : Str
  framework : Str
  similarity : Int
  deriving DecidableEq, Repr

/-- The metadata payload, `Omit<QueryResponse, 'answer'>` (api.ts lines
18-26 and 101). -/
structure Meta where
  citations : List Str
  frameworks_used : List Str
  mapping_mode : Option Bool
  incident_mode : Option Bool
  retrieved_chunks : List RetrievedChunk
  conversation_id : Option Str
  deriving DecidableEq, Repr

/-- A structured record as produced by `JSON.parse` and inspected through
its `type` discriminant (api.ts lines 158-168).  `other` stands for a
record whose `type` is none of the four recognised discriminants, which the
if/else chain silently passes over. -/
inductive SseRec where
  | metadata (d : Meta)
  | content (text : Str)
  | conversation_id (id : Str)
  | done
  | other
  deriving DecidableEq, Repr

/-- The abstract interface of `JSON.parse` applied to a record payload:
`none` models a parse exception (caught and logged at api.ts lines
169-171). -/
abbrev Parse := Str → Option SseRec

/-- A callback invocation of `submitQueryStream` (`StreamCallbacks`, api.ts
lines 100-106): the four protocol events plus the error callback fired from
the surrounding catch. -/
inductive Ev where
  | metadata (d : Meta)
  | token (text : Str)
  | convId (id : Str)
  | complete
  | error (msg : Option Str)
  deriving DecidableEq, Repr

/-- The outcome of examining one closed segment (api.ts lines 149-172):
the segment is skipped, or one callback fires and the loop continues, or
decoding stops immediately (the `[DONE]` literal and the structured `done`
record both fire `onComplete` and return from the whole function). -/
inductive LineOut where
  | skip
  | emit (e : Ev)
  | stop
  deriving DecidableEq, Repr

/-- The record marker `'data: '` (api.ts line 151). -/
def dataTag : Str := "data: ".data

/-- The terminator literal `'[DONE]'` (api.ts line 153). -/
def doneTag : Str := "[DONE]".data

/-- One iteration of the inner `for` loop of `submitQueryStream` (api.ts
lines 149-172). -/
def processLine (parse : Parse) (line : Str) : LineOut :=
  if jsTrim line = [] then .skip
  else if dataTag.isPrefixOf line then
    let dataStr := line.drop 6
    if dataStr = doneTag then .stop
    else
      match parse dataStr with
      | none => .skip
      | some (.metadata d) => .emit (.metadata d)
      | some (.content t) => .emit (.token t)
      | some (.conversation_id i) => .emit (.convId i)
      | some .done => .stop
      | some .other => .skip
  else .skip

/-- The inner `for` loop over the closed segments of one chunk: the events
fired in order, and whether the function returned early.  An early return
has already fired `onComplete`, hence the trailing `Ev.complete`. -/
def processLines (parse : Parse) : List Str → List Ev × Bool
  | [] => ([], false)
  | l :: ls =>
    match processLine parse l with
    | .skip => processLines parse ls
    | .emit e =>
      let p := processLines parse ls
      (e :: p.1, p.2)
    | .stop => ([Ev.complete], true)

/-- One iteration of the outer `while` loop on a freshly arrived chunk
(api.ts lines 144-173): append to the buffer, split on the separator, keep
the last piece as the new buffer, and run the record loop on the rest.
Returns the events fired, the new buffer, and whether the function
returned early. -/
def stepChunk (parse : Parse) (buffer chunk : Str) : List Ev × Str × Bool :=
  let lines := splitSep (buffer ++ chunk)
  let p := processLines parse lines.dropLast
  (p.1, lines.getLastD [], p.2)

/-- The outer `while` loop (api.ts lines 140-175): chunks arrive in order;
when the transport signals `done` the loop breaks and `onComplete` fires
(line 175). -/
def decodeLoop (parse : Parse) (buffer : Str) : List Str → List Ev
  | [] => [Ev.complete]
  | c :: cs =>
    let r := stepChunk parse buffer c
    if r.2.2 then r.1 else r.1 ++ decodeLoop parse r.2.1 cs

/-- The callback sequence `submitQueryStream` fires on a given chunk
sequence, starting from the empty buffer (api.ts line 138). -/
def decodeStream (parse : Parse) (chunks : List Str) : List Ev :=
  decodeLoop parse [] chunks

/-- A string free of the record separator `'\n\n'`. -/
def noSep : Str → Bool
  | [] => true
  | [_] => true
  | c1 :: c2 :: rest => !(c1 = '\n' && c2 = '\n') && noSep (c2 :: rest)

/-- A well-framed record line: free of the separator and not ending in a
line break (so that gluing the separator after it cannot create an earlier
separator occurrence). -/
def recordOk (l : Str) : Bool :=
  noSep l && l.getLast? ≠ some '\n'

/-- JS `Array.prototype.join` with the record separator: the wire form of a
record list, without the trailing separator. -/
def joinSep : List Str → Str
  | [] => []
  | [l] => l
  | l :: l2 :: ls => l ++ sep ++ joinSep (l2 :: ls)

/-- A separator-free string closes no segment. -/
theorem splitStep_noSep : ∀ s : Str, noSep s = true → splitStep s = ([], s) := by
  intro s
  induction s using twoStep_induction with
  | h0 => intro; rfl
  | h1 c => intro; rfl
  | h2 c1 c2 rest ih1 ih2 =>
    intro hn
    rw [noSep] at hn
    simp only [Bool.and_eq_true, Bool.not_eq_true'] at hn
    rw [splitStep_two]
    have hne : ¬(c1 = '\n' ∧ c2 = '\n') := by
      intro hc
      rw [hc.1, hc.2] at hn
      simp at hn
    rw [if_neg hne, ih2 hn.2]

/-- A well-framed record followed by the separator is closed exactly at the
separator. -/
theorem splitStep_record (l t : Str) (h : recordOk l = true) :
    splitStep (l ++ sep ++ t) = (l :: (splitStep t).1, (splitStep t).2) := by
  induction l using twoStep_induction with
  | h0 =>
    show splitStep ('\n' :: '\n' :: t) = _
    rw [splitStep_two, if_pos ⟨rfl, rfl⟩]
  | h1 c =>
    have hc : ¬(c = '\n' ∧ '\n' = '\n') := by
      intro hx
      rw [recordOk] at h
      simp [hx.1] at h
    show splitStep (c :: '\n' :: '\n' :: t) = _
    rw [splitStep_two, if_neg hc]
    have h2 : splitStep ('\n' :: '\n' :: t) = (([] : Str) :: (splitStep t).1, (splitStep t).2) := by
      rw [splitStep_two, if_pos ⟨rfl, rfl⟩]
    rw [h2]
  | h2 c1 c2 rest ih1 ih2 =>
    rw [recordOk, noSep] at h
    simp only [Bool.and_eq_true, Bool.not_eq_true'] at h
    have hok : recordOk (c2 :: rest) = true := by
      rw [recordOk]
      simp only [Bool.and_eq_true]
      refine ⟨h.1.2, ?_⟩
      have : (c1 :: c2 :: rest).getLast? = (c2 :: rest).getLast? := by
        rw [List.getLast?_cons_cons]
      rw [this] at h
      exact h.2
    have hne : ¬(c1 = '\n' ∧ c2 = '\n') := by
      intro hc
      rw [hc.1, hc.2] at h
      simp at h
    have tail := ih2 hok
    simp only [List.cons_append, List.append_assoc] at tail ⊢
    rw [splitStep_two, if_neg hne, tail]

/-- Running the record loop on a concatenation: the first part runs, and if
it did not return early the second part continues. -/
theorem processLines_append (parse : Parse) (a b : List Str) :
    processLines parse (a ++ b) =
      if (processLines parse a).2 then processLines parse a
      else ((processLines parse a).1 ++ (processLines parse b).1,
        (processLines parse b).2) := by
  induction a with
  | nil => simp [processLines]
  | cons l ls ih =>
    rcases hpl : processLine parse l with _ | e | _
    · simp only [List.cons_append, processLines, hpl]
      exact ih
    · simp only [List.cons_append, processLines, hpl, List.append_eq]
      rw [ih]
      by_cases h : (processLines parse ls).2
      · simp [h]
      · simp [h]
    · simp only [List.cons_append, processLines, hpl]
      simp

/-- An early return has fired `onComplete` last. -/
theorem processLines_stop_getLast (parse : Parse) (ls : List Str)
    (h : (processLines parse ls).2 = true) :
    (processLines parse ls).1.getLast? = some Ev.complete := by
  induction ls with
  | nil => simp [processLines] at h
  | cons l ls ih =>
    rcases hpl : processLine parse l with _ | e | _
    · simp only [processLines, hpl] at h ⊢
      exact ih h
    · simp only [processLines, hpl] at h ⊢
      have h2 := ih h
      rcases hnil : (processLines parse ls).1 with _ | ⟨x, xs⟩
      · rw [hnil] at h2
        simp at h2
      · rw [hnil] at h2
        rw [List.getLast?_cons_cons]
        exact h2
    · simp only [processLines, hpl] at h ⊢
      rfl

/-- The per-chunk step in terms of the closed-segments view. -/
theorem stepChunk_eq (parse : Parse) (buf c : Str) :
    stepChunk parse buf c =
      ((processLines parse (splitStep (buf ++ c)).1).1,
        (splitStep (buf ++ c)).2,
        (processLines parse (splitStep (buf ++ c)).1).2) := by
  unfold stepChunk
  simp only [splitSep_eq_splitStep, List.dropLast_concat, List.getLastD_concat]

/-- Merging two adjacent chunks does not change the fired callbacks. -/
theorem decodeLoop_merge (parse : Parse) (buf c1 c2 : Str) (cs : List Str) :
    decodeLoop parse buf (c1 :: c2 :: cs) =
      decodeLoop parse buf ((c1 ++ c2) :: cs) := by
  have hsplit : splitStep (buf ++ (c1 ++ c2)) =
      ((splitStep (buf ++ c1)).1 ++
        (splitStep ((splitStep (buf ++ c1)).2 ++ c2)).1,
        (splitStep ((splitStep (buf ++ c1)).2 ++ c2)).2) := by
    rw [← List.append_assoc]
    exact splitStep_append (buf ++ c1) c2
  simp only [decodeLoop, stepChunk_eq, hsplit]
  rw [processLines_append]
  by_cases h1 : (processLines parse (splitStep (buf ++ c1)).1).2
  · simp [h1]
  · simp only [h1, if_false, Bool.false_eq_true]
    by_cases h2 :
        (processLines parse (splitStep ((splitStep (buf ++ c1)).2 ++ c2)).1).2
    · simp [h2, decodeLoop, stepChunk_eq]
    · simp [h2, decodeLoop, stepChunk_eq]

/-- Any chunk sequence fires the same callbacks as the single chunk made of
their concatenation. -/
theorem decodeLoop_join (parse : Parse) :
    ∀ (n : Nat) (chunks : List Str), chunks.length ≤ n →
      decodeLoop parse [] chunks = decodeLoop parse [] [chunks.flatten] := by
  intro n
  induction n with
  | zero =>
    intro chunks h
    have : chunks = [] := List.length_eq_zero.mp (Nat.le_zero.mp h)
    subst this
    simp [decodeLoop, stepChunk_eq, splitStep, processLines]
  | succ n ih =>
    intro chunks h
    match chunks with
    | [] => simp [decodeLoop, stepChunk_eq, splitStep, processLines]
    | [c] => simp [List.flatten]
    | c1 :: c2 :: cs =>
      rw [decodeLoop_merge]
      have hlen : ((c1 ++ c2) :: cs).length ≤ n := by
        simp only [List.length_cons] at h ⊢
        omega
      rw [ih _ hlen]
      simp [List.flatten, List.append_assoc]

/-- C1.  Chunk-boundary independence of the decoder: for every byte stream
and every way of splitting it into successive chunks, `submitQueryStream`
fires the same ordered callback sequence (metadata, token, conversation-id,
complete) as when the whole stream arrives as a single chunk. -/
theorem decodeStream_chunk_independent (parse : Parse) (chunks : List Str) :
    decodeStream parse chunks = decodeStream parse [chunks.flatten] :=
  decodeLoop_join parse chunks.length chunks (Nat.le_refl _)

theorem getLast?_append_right {α : Type} {l₂ : List α} {x : α}
    (l₁ : List α) (h : l₂.getLast? = some x) :
    (l₁ ++ l₂).getLast? = some x := by
  induction l₁ with
  | nil => simpa using h
  | cons a as ih =>
    rcases hcase : as ++ l₂ with _ | ⟨y, ys⟩
    · rcases hl2 : l₂ with _ | _
      · rw [hl2] at h; simp at h
      · exact absurd hcase (by simp [hl2])
    · rw [List.cons_append, hcase, List.getLast?_cons_cons, ← hcase, ih]

/-- The last callback of any decode run is `onComplete`. -/
theorem decodeLoop_getLast (parse : Parse) :
    ∀ (chunks : List Str) (buf : Str),
      (decodeLoop parse buf chunks).getLast? = some Ev.complete := by
  intro chunks
  induction chunks with
  | nil => intro buf; rfl
  | cons c cs ih =>
    intro buf
    simp only [decodeLoop]
    by_cases h : (stepChunk parse buf c).2.2
    · simp only [h, if_true]
      rw [stepChunk_eq] at h ⊢
      exact processLines_stop_getLast parse _ h
    · simp only [h, if_false, Bool.false_eq_true]
      exact getLast?_append_right _ (ih _)

/-- C6.  If the transport ends without a terminator record having been
decoded and without a transport error, the decoder still fires the
completion callback: every decode run ends with `Ev.complete`, so the
consumer is never left waiting. -/
theorem decodeStream_always_completes (parse : Parse) (chunks : List Str) :
    (decodeStream parse chunks).getLast? = some Ev.complete :=
  decodeLoop_getLast parse chunks []

/-- The wire form of a record list with a trailing separator. -/
def streamOf (lines : List Str) : Str := joinSep lines ++ sep

/-- Splitting the wire form of well-framed records without a trailing
separator leaves the last record in the remainder. -/
theorem splitStep_joinSep :
    ∀ (ls : List Str) (l : Str), (∀ x ∈ l :: ls, recordOk x = true) →
      splitStep (joinSep (l :: ls)) =
        ((l :: ls).dropLast, (l :: ls).getLastD []) := by
  intro ls
  induction ls with
  | nil =>
    intro l h
    have hl := h l (by simp)
    rw [joinSep]
    rw [splitStep_noSep l (by rw [recordOk] at hl; exact (Bool.and_eq_true .. ▸ hl).1)]
    rfl
  | cons l2 ls2 ih =>
    intro l h
    rw [joinSep, splitStep_record _ _ (h l (by simp))]
    rw [ih l2 (by intro x hx; exact h x (by simp [hx]))]
    rfl

/-- Splitting the wire form of well-framed records with the trailing
separator closes every record and empties the buffer. -/
theorem splitStep_streamOf :
    ∀ (ls : List Str) (l : Str), (∀ x ∈ l :: ls, recordOk x = true) →
      splitStep (streamOf (l :: ls)) = (l :: ls, []) := by
  intro ls
  induction ls with
  | nil =>
    intro l h
    have : streamOf [l] = l ++ sep ++ [] := by
      rw [streamOf, joinSep, List.append_nil]
    rw [this, splitStep_record _ _ (h l (by simp))]
    rfl
  | cons l2 ls2 ih =>
    intro l h
    have : streamOf (l :: l2 :: ls2) = l ++ sep ++ streamOf (l2 :: ls2) := by
      rw [streamOf, joinSep, streamOf]
      simp [List.append_assoc]
    rw [this, splitStep_record _ _ (h l (by simp))]
    rw [ih l2 (by intro x hx; exact h x (by simp [hx]))]

/-- The record loop on one line carrying the `'data: '` marker and a
payload other than the terminator literal routes on the parse result. -/
theorem processLine_data (parse : Parse) (p : Str) (hp : p ≠ doneTag) :
    processLine parse (dataTag ++ p) =
      match parse p with
      | none => .skip
      | some (.metadata d) => .emit (.metadata d)
      | some (.content t) => .emit (.token t)
      | some (.conversation_id i) => .emit (.convId i)
      | some .done => .stop
      | some .other => .skip := by
  have h1 : jsTrim (dataTag ++ p) ≠ [] := by
    intro hcon
    unfold jsTrim at hcon
    rw [List.reverse_eq_nil_iff, List.dropWhile_eq_nil_iff] at hcon
    have hdrop : (dataTag ++ p).dropWhile isJsSpace = dataTag ++ p := by
      show (('d' :: ("ata: ".data ++ p)) : Str).dropWhile isJsSpace = _
      rw [List.dropWhile_cons_of_neg (by decide)]
      rfl
    have hd : ('d' : Char) ∈ ((dataTag ++ p).dropWhile isJsSpace).reverse := by
      rw [hdrop, List.mem_reverse]
      show 'd' ∈ ('d' :: ("ata: ".data ++ p) : Str)
      exact List.mem_cons_self _ _
    exact absurd (hcon 'd' hd) (by decide)
  have h2 : dataTag.isPrefixOf (dataTag ++ p) = true := by
    rw [List.isPrefixOf_iff_prefix]
    exact List.prefix_append _ _
  have h3 : (dataTag ++ p).drop 6 = p := by
    have h6 : dataTag.length = 6 := rfl
    rw [← h6, List.drop_left]
  unfold processLine
  rw [if_neg h1, if_pos h2, h3, if_neg hp]

/-- C5.  A malformed record surrounded by valid records: the decoder fires
exactly the valid records' events, in order, with the malformed record's
event absent, and the stream is not aborted. -/
theorem decodeStream_skips_malformed (parse : Parse)
    (vs1 vs2 : List Str) (p : Str) (evs1 evs2 : List Ev)
    (hrec : ∀ l ∈ vs1 ++ (dataTag ++ p) :: vs2, recordOk l = true)
    (h1 : processLines parse vs1 = (evs1, false))
    (h2 : processLines parse vs2 = (evs2, false))
    (hp : p ≠ doneTag)
    (hbad : parse p = none) :
    decodeStream parse [streamOf (vs1 ++ (dataTag ++ p) :: vs2)] =
      evs1 ++ evs2 ++ [Ev.complete] := by
  have hshape : ∃ l ls, vs1 ++ (dataTag ++ p) :: vs2 = l :: ls := by
    cases vs1 with
    | nil => exact ⟨_, _, rfl⟩
    | cons a as => exact ⟨a, as ++ (dataTag ++ p) :: vs2, rfl⟩
  obtain ⟨l, ls, hls⟩ := hshape
  have hsplit : splitStep (streamOf (vs1 ++ (dataTag ++ p) :: vs2)) =
      (vs1 ++ (dataTag ++ p) :: vs2, []) := by
    rw [hls]
    exact splitStep_streamOf ls l (hls ▸ hrec)
  have hline : processLine parse (dataTag ++ p) = .skip := by
    rw [processLine_data parse p hp, hbad]
  have hmid : processLines parse ((dataTag ++ p) :: vs2) = (evs2, false) := by
    rw [processLines, hline, h2]
  have hall : processLines parse (vs1 ++ (dataTag ++ p) :: vs2) =
      (evs1 ++ evs2, false) := by
    rw [processLines_append, h1, hmid]
    simp
  show decodeLoop parse [] [streamOf (vs1 ++ (dataTag ++ p) :: vs2)] = _
  rw [decodeLoop, stepChunk_eq, List.nil_append, hsplit]
  simp only [hall]
  rw [decodeLoop]
  simp

/-- C9.  A structured record whose discriminant is `done` (distinct from
the `'[DONE]'` terminator literal) ends decoding at once: the completion
callback fires and nothing is processed after it, not even complete records
already in the buffer or whole later chunks. -/
theorem decodeStream_done_record_stops (parse : Parse)
    (vs1 rest : List Str) (p : Str) (evs1 : List Ev) (cs : List Str)
    (hrec : ∀ l ∈ vs1 ++ (dataTag ++ p) :: rest, recordOk l = true)
    (h1 : processLines parse vs1 = (evs1, false))
    (hp : p ≠ doneTag)
    (hdone : parse p = some .done) :
    decodeStream parse (streamOf (vs1 ++ (dataTag ++ p) :: rest) :: cs) =
      evs1 ++ [Ev.complete] := by
  have hshape : ∃ l ls, vs1 ++ (dataTag ++ p) :: rest = l :: ls := by
    cases vs1 with
    | nil => exact ⟨_, _, rfl⟩
    | cons a as => exact ⟨a, as ++ (dataTag ++ p) :: rest, rfl⟩
  obtain ⟨l, ls, hls⟩ := hshape
  have hsplit : splitStep (streamOf (vs1 ++ (dataTag ++ p) :: rest)) =
      (vs1 ++ (dataTag ++ p) :: rest, []) := by
    rw [hls]
    exact splitStep_streamOf ls l (hls ▸ hrec)
  have hline : processLine parse (dataTag ++ p) = .stop := by
    rw [processLine_data parse p hp, hdone]
  have hmid : processLines parse ((dataTag ++ p) :: rest) =
      ([Ev.complete], true) := by
    rw [processLines, hline]
  have hall : processLines parse (vs1 ++ (dataTag ++ p) :: rest) =
      (evs1 ++ [Ev.complete], true) := by
    rw [processLines_append, h1, hmid]
    simp
  show decodeLoop parse [] (streamOf (vs1 ++ (dataTag ++ p) :: rest) :: cs) = _
  rw [decodeLoop, stepChunk_eq, List.nil_append, hsplit]
  simp only [hall]
  simp

/-- C10.  A complete, well-formed record still in the buffer when the
transport ends — a trailing record not followed by the separator — is
silently discarded: its event is never fired, only the synthetic completion
callback is. -/
theorem decodeStream_discards_trailing (parse : Parse)
    (vs : List Str) (r : Str) (evs : List Ev) (e : Ev)
    (hrec : ∀ l ∈ vs ++ [r], recordOk l = true)
    (hvs : processLines parse vs = (evs, false))
    (hr : processLine parse r = .emit e) :
    decodeStream parse [joinSep (vs ++ [r])] = evs ++ [Ev.complete] := by
  have hshape : ∃ l ls, vs ++ [r] = l :: ls := by
    cases vs with
    | nil => exact ⟨r, [], rfl⟩
    | cons a as => exact ⟨a, as ++ [r], rfl⟩
  obtain ⟨l, ls, hls⟩ := hshape
  have hsplit : splitStep (joinSep (vs ++ [r])) = (vs, r) := by
    rw [hls, splitStep_joinSep ls l (hls ▸ hrec), ← hls]
    rw [List.dropLast_concat, List.getLastD_concat]
  show decodeLoop parse [] [joinSep (vs ++ [r])] = _
  rw [decodeLoop, stepChunk_eq, List.nil_append, hsplit]
  simp only [hvs]
  rw [decodeLoop]
  simp

/-- Message roles (`'user' | 'assistant'`, api.ts line 9). -/
inductive Role where
  | user
  | assistant
  deriving DecidableEq, Repr

/-- One chat turn (`ChatMessage`, api.ts lines 7-16); the optional fields
are `undefined` until attached. -/
structure ChatMessage where
  id : Str
  role : Role
  content : Str
  citations : Option (List Str)
  evidence : Option (List RetrievedChunk)
  frameworks_used : Option (List Str)
  mapping_mode : Option Bool
  incident_mode : Option Bool
  deriving DecidableEq, Repr

/-- The `ChatWorkspace` component state (ChatWorkspace.tsx lines 26-36).
The framework set is carried as its element list; only emptiness and the
resulting array matter to the embedded handlers. -/
structure WState where
  messages : List ChatMessage
  input : Str
  loading : Bool
  isFetchingHistory : Bool
  error : Option Str
  isWelcome : Bool
  selectedFrameworks : List Str
  deriving DecidableEq, Repr

/-- The assistant message materialized by `onMetadata` when no token has
arrived yet (ChatWorkspace.tsx lines 112-121). -/
def metaMsg (assistantMsgId : Str) (d : Meta) : ChatMessage :=
  { id := assistantMsgId
    role := .assistant
    content := []
    citations := some d.citations
    frameworks_used := some d.frameworks_used
    evidence := some d.retrieved_chunks
    mapping_mode := d.mapping_mode
    incident_mode := d.incident_mode }

/-- The assistant message materialized by `onToken` on the first token
(ChatWorkspace.tsx lines 141-145). -/
def tokenMsg (assistantMsgId : Str) (t : Str) : ChatMessage :=
  { id := assistantMsgId
    role := .assistant
    content := t
    citations := none
    evidence := none
    frameworks_used := none
    mapping_mode := none
    incident_mode := none }

/-- The `onMetadata` callback (ChatWorkspace.tsx lines 107-135): create the
assistant message with empty content if it does not exist yet, otherwise
overwrite the citation/evidence/flag fields of the message carrying the
in-flight id; then clear the loading flag.  The boolean is the
`assistantCreated` ref. -/
def applyMetadata (assistantMsgId : Str) (d : Meta)
    (st : WState) (created : Bool) : WState × Bool :=
  if created = false then
    ({ st with
        messages := st.messages ++ [metaMsg assistantMsgId d]
        loading := false },
      true)
  else
    ({ st with
        messages := st.messages.map fun msg =>
          if msg.id = assistantMsgId then
            { msg with
                citations := some d.citations
                frameworks_used := some d.frameworks_used
                evidence := some d.retrieved_chunks
                mapping_mode := d.mapping_mode
                incident_mode := d.incident_mode }
          else msg
        loading := false },
      created)

/-- The `onToken` callback (ChatWorkspace.tsx lines 136-151): create the
assistant message with the first token as content, or append the token to
the message carrying the in-flight id. -/
def applyToken (assistantMsgId : Str) (t : Str)
    (st : WState) (created : Bool) : WState × Bool :=
  if created = false then
    ({ st with messages := st.messages ++ [tokenMsg assistantMsgId t] }, true)
  else
    ({ st with
        messages := st.messages.map fun msg =>
          if msg.id = assistantMsgId then
            { msg with content := msg.content ++ t }
          else msg },
      created)

/-- The `onError` callback (ChatWorkspace.tsx lines 156-160): surface
`err.message || 'Streaming failed.'` and clear the loading flag; the
message list is untouched. -/
def applyError (msg : Option Str) (st : WState) : WState :=
  { st with
      error := some (jsOrStr msg "Streaming failed.".data)
      loading := false }

/-- The `onComplete` callback (ChatWorkspace.tsx lines 161-163). -/
def applyComplete (st : WState) : WState :=
  { st with loading := false }

/-- The `onConversationId` callback (ChatWorkspace.tsx lines 152-155) sets
a ref and notifies the parent; it changes none of the embedded component
state. -/
def applyConvId (st : WState) : WState := st

/-- Dispatch of one stream callback on the component state plus the
`assistantCreated` ref of the active `handleSend` call. -/
def applyEvent (assistantMsgId : Str) (p : WState × Bool) : Ev → WState × Bool
  | .metadata d => applyMetadata assistantMsgId d p.1 p.2
  | .token t => applyToken assistantMsgId t p.1 p.2
  | .convId _ => (applyConvId p.1, p.2)
  | .complete => (applyComplete p.1, p.2)
  | .error m => (applyError m p.1, p.2)

/-- Folding a whole callback sequence over the component state. -/
def runStream (assistantMsgId : Str) (p : WState × Bool)
    (evs : List Ev) : WState × Bool :=
  evs.foldl (applyEvent assistantMsgId) p

/-- The user message appended by `handleSend` (ChatWorkspace.tsx lines
87-91); `nowId` is the `Date.now()` stamp. -/
def userMsg (nowId : Str) (text : Str) : ChatMessage :=
  { id := nowId
    role := .user
    content := text
    citations := none
    evidence := none
    frameworks_used := none
    mapping_mode := none
    incident_mode := none }

/-- The result of one submission attempt: the state after the synchronous
part of the handler, and whether `submitQueryStream` was invoked (and with
it the HTTP request issued). -/
structure SendResult where
  state : WState
  requestSent : Bool
  deriving DecidableEq, Repr

/-- The synchronous part of `handleSend` (ChatWorkspace.tsx lines 81-106):
the guard at line 83 checks the trimmed text, the loading flag and the
history fetch — and nothing else; past it, the user message is appended,
the input cleared, the loading flag set, the error reset, and
`submitQueryStream` is called. -/
def handleSend (nowId : Str) (overrideInput : Option Str)
    (st : WState) : SendResult :=
  let text := jsTrim (jsOrStr overrideInput st.input)
  if text = [] || st.loading || st.isFetchingHistory then
    { state := st, requestSent := false }
  else
    { state :=
        { st with
            isWelcome := false
            messages := st.messages ++ [userMsg nowId text]
            input := []
            loading := true
            error := none }
      requestSent := true }

/-- The textarea key handler (ChatWorkspace.tsx lines 174-179): plain Enter
submits through `handleSend` with no override. -/
def handleKeyDown (nowId : Str) (key : Str) (shiftKey : Bool)
    (st : WState) : SendResult :=
  if key = "Enter".data ∧ shiftKey = false then handleSend nowId none st
  else { state := st, requestSent := false }

/-- A suggestion-card click (ChatWorkspace.tsx lines 181-184): set the
input to the card prompt and submit it as the override text. -/
def handleSuggestionClick (nowId : Str) (prompt : Str)
    (st : WState) : SendResult :=
  handleSend nowId (some prompt) { st with input := prompt }

/-- The `disabled` expression of the send button (ChatWorkspace.tsx line
320). -/
def sendButtonDisabled (st : WState) : Bool :=
  jsTrim st.input = [] || st.loading || st.isFetchingHistory
    || st.selectedFrameworks.length = 0

/-- A click on the send button (ChatWorkspace.tsx lines 317-325): a
disabled button fires no handler, otherwise `handleSend` runs with no
override. -/
def sendButtonClick (nowId : Str) (st : WState) : SendResult :=
  if sendButtonDisabled st then { state := st, requestSent := false }
  else handleSend nowId none st

/-- The concatenation, in arrival order, of all token texts of a callback
sequence. -/
def tokenConcat (evs : List Ev) : Str :=
  (evs.filterMap fun e =>
    match e with
    | .token t => some t
    | _ => none).flatten

theorem tokenConcat_nil : tokenConcat [] = [] := rfl

theorem tokenConcat_token (t : Str) (rest : List Ev) :
    tokenConcat (.token t :: rest) = t ++ tokenConcat rest := by
  simp [tokenConcat]

theorem tokenConcat_metadata (d : Meta) (rest : List Ev) :
    tokenConcat (.metadata d :: rest) = tokenConcat rest := by
  simp [tokenConcat]

theorem tokenConcat_convId (i : Str) (rest : List Ev) :
    tokenConcat (.convId i :: rest) = tokenConcat rest := by
  simp [tokenConcat]

theorem tokenConcat_complete (rest : List Ev) :
    tokenConcat (.complete :: rest) = tokenConcat rest := by
  simp [tokenConcat]

theorem tokenConcat_error (m : Option Str) (rest : List Ev) :
    tokenConcat (.error m :: rest) = tokenConcat rest := by
  simp [tokenConcat]

theorem tokenConcat_append (a b : List Ev) :
    tokenConcat (a ++ b) = tokenConcat a ++ tokenConcat b := by
  simp [tokenConcat]

theorem runStream_cons (aid : Str) (p : WState × Bool) (e : Ev)
    (rest : List Ev) :
    runStream aid p (e :: rest) = runStream aid (applyEvent aid p e) rest := rfl

theorem runStream_append (aid : Str) (p : WState × Bool) (a b : List Ev) :
    runStream aid p (a ++ b) = runStream aid (runStream aid p a) b := by
  simp [runStream, List.foldl_append]

/-- Invariant of the streaming callbacks once the assistant message has
been created: every message carrying the in-flight id accumulates exactly
the token texts, and such a message never disappears. -/
theorem runStream_created (aid : Str) :
    ∀ (evs : List Ev) (st : WState) (k : Str),
      (∀ m ∈ st.messages, m.id = aid → m.content = k) →
      (∀ m ∈ (runStream aid (st, true) evs).1.messages, m.id = aid →
          m.content = k ++ tokenConcat evs) ∧
        ((∃ m ∈ st.messages, m.id = aid) →
          ∃ m ∈ (runStream aid (st, true) evs).1.messages, m.id = aid) := by
  intro evs
  induction evs with
  | nil =>
    intro st k h
    refine ⟨?_, ?_⟩
    · intro m hm hid
      rw [tokenConcat_nil, List.append_nil]
      exact h m hm hid
    · intro hex
      exact hex
  | cons e rest ih =>
    intro st k h
    cases e with
    | metadata d =>
      rw [runStream_cons]
      have hstep : applyEvent aid (st, true) (.metadata d) =
          ({ st with
              messages := st.messages.map fun msg =>
                if msg.id = aid then
                  { msg with
                      citations := some d.citations
                      frameworks_used := some d.frameworks_used
                      evidence := some d.retrieved_chunks
                      mapping_mode := d.mapping_mode
                      incident_mode := d.incident_mode }
                else msg
              loading := false },
            true) := by
        simp [applyEvent, applyMetadata]
      rw [hstep, tokenConcat_metadata]
      have hinv : ∀ m ∈ (st.messages.map fun msg =>
          if msg.id = aid then
            { msg with
                citations := some d.citations
                frameworks_used := some d.frameworks_used
                evidence := some d.retrieved_chunks
                mapping_mode := d.mapping_mode
                incident_mode := d.incident_mode }
          else msg), m.id = aid → m.content = k := by
        intro m hm hid
        rw [List.mem_map] at hm
        obtain ⟨m0, hm0, rfl⟩ := hm
        by_cases h0 : m0.id = aid
        · simp only [if_pos h0]
          exact h m0 hm0 h0
        · rw [if_neg h0] at hid ⊢
          exact h m0 hm0 hid
      refine ⟨(ih _ k hinv).1, ?_⟩
      · intro hex
        refine (ih _ k hinv).2 ?_
        obtain ⟨m0, hm0, hid0⟩ := hex
        refine ⟨if m0.id = aid then
          { m0 with
              citations := some d.citations
              frameworks_used := some d.frameworks_used
              evidence := some d.retrieved_chunks
              mapping_mode := d.mapping_mode
              incident_mode := d.incident_mode }
          else m0, List.mem_map_of_mem _ hm0, ?_⟩
        rw [if_pos hid0]
        exact hid0
    | token t =>
      rw [runStream_cons]
      have hstep : applyEvent aid (st, true) (.token t) =
          ({ st with
              messages := st.messages.map fun msg =>
                if msg.id = aid then { msg with content := msg.content ++ t }
                else msg },
            true) := by
        simp [applyEvent, applyToken]
      rw [hstep, tokenConcat_token]
      have hinv : ∀ m ∈ (st.messages.map fun msg =>
          if msg.id = aid then { msg with content := msg.content ++ t }
          else msg), m.id = aid → m.content = k ++ t := by
        intro m hm hid
        rw [List.mem_map] at hm
        obtain ⟨m0, hm0, rfl⟩ := hm
        by_cases h0 : m0.id = aid
        · simp only [if_pos h0]
          rw [h m0 hm0 h0]
        · rw [if_neg h0] at hid ⊢
          exact absurd hid h0
      refine ⟨?_, ?_⟩
      · intro m hm hid
        rw [← List.append_assoc]
        exact (ih _ (k ++ t) hinv).1 m hm hid
      · intro hex
        refine (ih _ (k ++ t) hinv).2 ?_
        obtain ⟨m0, hm0, hid0⟩ := hex
        refine ⟨if m0.id = aid then { m0 with content := m0.content ++ t }
          else m0, List.mem_map_of_mem _ hm0, ?_⟩
        rw [if_pos hid0]
        exact hid0
    | convId i =>
      rw [runStream_cons]
      have hstep : applyEvent aid (st, true) (.convId i) = (st, true) := rfl
      rw [hstep, tokenConcat_convId]
      exact ih st k h
    | complete =>
      rw [runStream_cons]
      have hstep : applyEvent aid (st, true) .complete =
          ({ st with loading := false }, true) := rfl
      rw [hstep, tokenConcat_complete]
      exact ih _ k h
    | error m =>
      rw [runStream_cons]
      have hstep : applyEvent aid (st, true) (.error m) =
          ({ st with
              error := some (jsOrStr m "Streaming failed.".data)
              loading := false },
            true) := rfl
      rw [hstep, tokenConcat_error]
      exact ih _ k h

/-- From an in-flight state whose id is fresh, the callbacks accumulate
exactly the token texts into the assistant message, which exists as soon
as one token has arrived. -/
theorem runStream_fresh (aid : Str) :
    ∀ (evs : List Ev) (st : WState),
      (∀ m ∈ st.messages, m.id ≠ aid) →
      (∀ m ∈ (runStream aid (st, false) evs).1.messages, m.id = aid →
          m.content = tokenConcat evs) ∧
        ((∃ t, Ev.token t ∈ evs) →
          ∃ m ∈ (runStream aid (st, false) evs).1.messages, m.id = aid) := by
  intro evs
  induction evs with
  | nil =>
    intro st h
    refine ⟨?_, ?_⟩
    · intro m hm hid
      exact absurd hid (h m hm)
    · rintro ⟨t, ht⟩
      simp at ht
  | cons e rest ih =>
    intro st h
    cases e with
    | metadata d =>
      rw [runStream_cons]
      have hstep : applyEvent aid (st, false) (.metadata d) =
          ({ st with
              messages := st.messages ++ [metaMsg aid d]
              loading := false },
            true) := rfl
      rw [hstep, tokenConcat_metadata]
      have hinv : ∀ m ∈ st.messages ++ [metaMsg aid d], m.id = aid →
          m.content = ([] : Str) := by
        intro m hm hid
        rcases List.mem_append.mp hm with hm | hm
        · exact absurd hid (h m hm)
        · rw [List.mem_singleton.mp hm]
          rfl
      have hc := runStream_created aid rest
        { st with messages := st.messages ++ [metaMsg aid d], loading := false }
        [] hinv
      refine ⟨?_, ?_⟩
      · intro m hm hid
        have := hc.1 m hm hid
        rwa [List.nil_append] at this
      · intro _
        exact hc.2 ⟨metaMsg aid d, by simp, rfl⟩
    | token t =>
      rw [runStream_cons]
      have hstep : applyEvent aid (st, false) (.token t) =
          ({ st with messages := st.messages ++ [tokenMsg aid t] }, true) := rfl
      rw [hstep, tokenConcat_token]
      have hinv : ∀ m ∈ st.messages ++ [tokenMsg aid t], m.id = aid →
          m.content = t := by
        intro m hm hid
        rcases List.mem_append.mp hm with hm | hm
        · exact absurd hid (h m hm)
        · rw [List.mem_singleton.mp hm]
          rfl
      have hc := runStream_created aid rest
        { st with messages := st.messages ++ [tokenMsg aid t] } t hinv
      exact ⟨hc.1, fun _ => hc.2 ⟨tokenMsg aid t, by simp, rfl⟩⟩
    | convId i =>
      rw [runStream_cons]
      have hstep : applyEvent aid (st, false) (.convId i) = (st, false) := rfl
      rw [hstep, tokenConcat_convId]
      refine ⟨(ih st h).1, ?_⟩
      rintro ⟨t, ht⟩
      rcases List.mem_cons.mp ht with ht | ht
      · exact absurd ht (by simp)
      · exact (ih st h).2 ⟨t, ht⟩
    | complete =>
      rw [runStream_cons]
      have hstep : applyEvent aid (st, false) .complete =
          ({ st with loading := false }, false) := rfl
      rw [hstep, tokenConcat_complete]
      refine ⟨(ih { st with loading := false } h).1, ?_⟩
      rintro ⟨t, ht⟩
      rcases List.mem_cons.mp ht with ht | ht
      · exact absurd ht (by simp)
      · exact (ih { st with loading := false } h).2 ⟨t, ht⟩
    | error m =>
      rw [runStream_cons]
      have hstep : applyEvent aid (st, false) (.error m) =
          ({ st with
              error := some (jsOrStr m "Streaming failed.".data)
              loading := false },
            false) := rfl
      rw [hstep, tokenConcat_error]
      have ihe := ih
        { st with
            error := some (jsOrStr m "Streaming failed.".data)
            loading := false } h
      refine ⟨ihe.1, ?_⟩
      rintro ⟨t, ht⟩
      rcases List.mem_cons.mp ht with ht | ht
      · exact absurd ht (by simp)
      · exact ihe.2 ⟨t, ht⟩

/-- C4.  For every event sequence ending in Done, the content of the
in-flight assistant message equals the concatenation, in arrival order, of
all token texts delivered during the stream — no reordering, no
deduplication — and the message exists once a token has arrived. -/
theorem streamed_content_is_token_concat (aid : Str) (st : WState)
    (evs : List Ev)
    (hfresh : ∀ m ∈ st.messages, m.id ≠ aid) :
    (∀ m ∈ (runStream aid (st, false) (evs ++ [Ev.complete])).1.messages,
        m.id = aid → m.content = tokenConcat evs) ∧
      ((∃ t, Ev.token t ∈ evs) →
        ∃ m ∈ (runStream aid (st, false) (evs ++ [Ev.complete])).1.messages,
          m.id = aid) := by
  have h := runStream_fresh aid (evs ++ [Ev.complete]) st hfresh
  have hconc : tokenConcat (evs ++ [Ev.complete]) = tokenConcat evs := by
    rw [tokenConcat_append]
    simp [tokenConcat]
  refine ⟨?_, ?_⟩
  · intro m hm hid
    rw [← hconc]
    exact h.1 m hm hid
  · rintro ⟨t, ht⟩
    exact h.2 ⟨t, List.mem_append_left _ ht⟩

/-- Once the assistant message has been created, every later callback
leaves the created flag set. -/
theorem runStream_snd_true (aid : Str) :
    ∀ (evs : List Ev) (p : WState × Bool), p.2 = true →
      (runStream aid p evs).2 = true := by
  intro evs
  induction evs with
  | nil =>
    intro p h
    exact h
  | cons e rest ih =>
    intro p h
    rw [runStream_cons]
    refine ih _ ?_
    cases e with
    | metadata d => simp [applyEvent, applyMetadata, h]
    | token t => simp [applyEvent, applyToken, h]
    | convId i => exact h
    | complete => exact h
    | error m => exact h

/-- C7.  A Metadata event arriving after one or more ContentToken events
leaves every message's content, id and role unchanged — in particular the
already-streamed content of the materialized assistant message — and every
message not carrying the in-flight id entirely unchanged; on the in-flight
message it overwrites exactly the citations, evidence, frameworks-used,
mapping-mode and incident-mode fields. -/
theorem metadata_touches_only_meta_fields (aid : Str) (d : Meta)
    (st0 : WState) (t : Str) (toks : List Ev) :
    List.Forall₂ (fun m m2 =>
        m2.id = m.id ∧ m2.role = m.role ∧ m2.content = m.content ∧
          (m.id ≠ aid → m2 = m) ∧
          (m.id = aid →
            m2.citations = some d.citations ∧
              m2.evidence = some d.retrieved_chunks ∧
              m2.frameworks_used = some d.frameworks_used ∧
              m2.mapping_mode = d.mapping_mode ∧
              m2.incident_mode = d.incident_mode))
      (runStream aid (st0, false) (Ev.token t :: toks)).1.messages
      (applyEvent aid (runStream aid (st0, false) (Ev.token t :: toks))
        (.metadata d)).1.messages := by
  have hsnd : (runStream aid (st0, false) (Ev.token t :: toks)).2 = true := by
    rw [runStream_cons]
    exact runStream_snd_true aid toks _ rfl
  rcases hp : runStream aid (st0, false) (Ev.token t :: toks) with ⟨st, created⟩
  rw [hp] at hsnd
  subst hsnd
  have happ : (applyEvent aid (st, true) (.metadata d)).1.messages =
      st.messages.map fun msg =>
        if msg.id = aid then
          { msg with
              citations := some d.citations
              frameworks_used := some d.frameworks_used
              evidence := some d.retrieved_chunks
              mapping_mode := d.mapping_mode
              incident_mode := d.incident_mode }
        else msg := by
    simp [applyEvent, applyMetadata]
  rw [happ]
  induction st.messages with
  | nil => exact List.Forall₂.nil
  | cons a l ih =>
    rw [List.map_cons]
    refine List.Forall₂.cons ?_ ih
    by_cases h0 : a.id = aid
    · rw [if_pos h0]
      exact ⟨rfl, rfl, rfl, fun hc => absurd h0 hc, fun _ => ⟨rfl, rfl, rfl, rfl, rfl⟩⟩
    · rw [if_neg h0]
      exact ⟨rfl, rfl, rfl, fun _ => rfl, fun hc => absurd hc h0⟩

/-- Folding token callbacks over a state whose last message is the
materialized assistant message and whose other messages carry other ids:
the tokens are appended to that last message and nothing else changes. -/
theorem runStream_tokens_exact (aid : Str) :
    ∀ (ts : List Str) (st : WState) (pre : List ChatMessage)
      (cur : ChatMessage),
      st.messages = pre ++ [cur] → (∀ x ∈ pre, x.id ≠ aid) → cur.id = aid →
      runStream aid (st, true) (ts.map Ev.token) =
        ({ st with
            messages :=
              pre ++ [{ cur with content := cur.content ++ ts.flatten }] },
          true) := by
  intro ts
  induction ts with
  | nil =>
    intro st pre cur hmsg hpre hcur
    have h1 : { cur with content := cur.content ++ (List.flatten ([] : List Str)) } = cur := by
      show { cur with content := cur.content ++ [] } = cur
      rw [List.append_nil]
    simp only [List.map_nil]
    show (st, true) = _
    rw [h1, ← hmsg]
  | cons t0 ts2 ih =>
    intro st pre cur hmsg hpre hcur
    rw [List.map_cons, runStream_cons]
    have hstep : applyEvent aid (st, true) (.token t0) =
        ({ st with
            messages := st.messages.map fun msg =>
              if msg.id = aid then { msg with content := msg.content ++ t0 }
              else msg },
          true) := by
      simp [applyEvent, applyToken]
    rw [hstep]
    have hmap : (st.messages.map fun msg =>
        if msg.id = aid then { msg with content := msg.content ++ t0 }
        else msg) = pre ++ [{ cur with content := cur.content ++ t0 }] := by
      rw [hmsg, List.map_append]
      have hp : pre.map (fun msg =>
          if msg.id = aid then { msg with content := msg.content ++ t0 }
          else msg) = pre := by
        rw [List.map_congr_left fun x hx => if_neg (hpre x hx)]
        exact List.map_id _
      rw [hp]
      rw [List.map_singleton, if_pos hcur]
    have := ih
      { st with
          messages := st.messages.map fun msg =>
            if msg.id = aid then { msg with content := msg.content ++ t0 }
            else msg }
      pre { cur with content := cur.content ++ t0 } hmap hpre hcur
    rw [this]
    have hcontent : ({ cur with content := cur.content ++ t0 } :
        ChatMessage).content ++ ts2.flatten = cur.content ++ (t0 :: ts2).flatten := by
      show (cur.content ++ t0) ++ ts2.flatten = _
      rw [List.flatten_cons, List.append_assoc]
    rw [hcontent]

/-- C8.  A transport-level failure raised mid-stream after one or more
tokens were delivered: the loading flag is cleared (the reducer is Idle), a
user-visible error message is surfaced, and the already-streamed partial
content of the assistant message stays in the message list, not rolled
back. -/
theorem transport_error_preserves_partial_content (aid : Str) (st : WState)
    (t : Str) (ts : List Str) (msg : Option Str)
    (hfresh : ∀ x ∈ st.messages, x.id ≠ aid) :
    (runStream aid (st, false)
        ((t :: ts).map Ev.token ++ [Ev.error msg])).1 =
      { st with
          messages := st.messages ++ [tokenMsg aid ((t :: ts).flatten)]
          loading := false
          error := some (jsOrStr msg "Streaming failed.".data) } := by
  rw [runStream_append, List.map_cons,
    runStream_cons aid (st, false) (Ev.token t) (List.map Ev.token ts)]
  have hstep : applyEvent aid (st, false) (.token t) =
      ({ st with messages := st.messages ++ [tokenMsg aid t] }, true) := rfl
  rw [hstep]
  have hrun := runStream_tokens_exact aid ts
    { st with messages := st.messages ++ [tokenMsg aid t] }
    st.messages (tokenMsg aid t) rfl hfresh rfl
  rw [hrun]
  have hcur : ({ tokenMsg aid t with
      content := (tokenMsg aid t).content ++ ts.flatten } : ChatMessage) =
      tokenMsg aid ((t :: ts).flatten) := by
    show ({ tokenMsg aid t with content := t ++ ts.flatten } : ChatMessage) = _
    rw [List.flatten_cons]
    exact rfl
  rw [hcur]
  rfl

/-- C2 (amended).  While the loading flag is set — from submission until
the first Metadata, error or completion callback — a second submission is
a no-op: `handleSend` returns without sending a request and the state is
unchanged. -/
theorem handleSend_noop_while_loading (nowId : Str) (ov : Option Str)
    (st : WState) (h : st.loading = true) :
    handleSend nowId ov st = { state := st, requestSent := false } := by
  unfold handleSend
  rw [h]
  simp

/-- C2 counterexample.  At a stream point after a Metadata event and
before Done, the loading flag has been cleared, so a second submission is
not a no-op: it sends a request and grows the message list. -/
theorem second_submission_after_metadata_accepted :
    (handleSend ['3'] (some ['a'])
        (applyEvent ['2']
          ((handleSend ['1'] none
              (⟨[], ['q'], false, false, none, true, [['n']]⟩ : WState)).state,
            false)
          (.metadata ⟨[], [], none, none, [], none⟩)).1).requestSent = true ∧
      (handleSend ['3'] (some ['a'])
          (applyEvent ['2']
            ((handleSend ['1'] none
                (⟨[], ['q'], false, false, none, true, [['n']]⟩ : WState)).state,
              false)
            (.metadata ⟨[], [], none, none, [], none⟩)).1).state.messages.length ≠
        (applyEvent ['2']
            ((handleSend ['1'] none
                (⟨[], ['q'], false, false, none, true, [['n']]⟩ : WState)).state,
              false)
            (.metadata ⟨[], [], none, none, [], none⟩)).1.messages.length := by
  decide

/-- C3 (amended).  A submission attempted with zero framework scopes via
the send button is rejected before any request is sent: the button is
disabled, so the click is a no-op.  The Enter-key and suggestion-card entry
points do not check the framework scope. -/
theorem sendButton_rejects_zero_scope (nowId : Str) (st : WState)
    (h : st.selectedFrameworks = []) :
    sendButtonClick nowId st = { state := st, requestSent := false } := by
  unfold sendButtonClick sendButtonDisabled
  rw [h]
  simp

/-- C3 counterexample.  A submission via the Enter key with zero framework
scopes selected passes the `handleSend` guard and sends the request. -/
theorem enter_key_zero_scope_sends :
    (handleKeyDown ['1'] "Enter".data false
        (⟨[], ['h', 'i'], false, false, none, false, []⟩ : WState)).requestSent =
      true := by
  decide

/-- Witness for the malformed-record claim at a concrete three-record
stream whose middle record fails to parse. -/
theorem decodeStream_skips_malformed_witness :
    (∀ l ∈ [dataTag ++ ['1']] ++ (dataTag ++ ['x']) :: [dataTag ++ ['2']],
        recordOk l = true) ∧
      processLines
          (fun s => if s = ['1'] then some (SseRec.content ['A'])
            else if s = ['2'] then some (SseRec.content ['B']) else none)
          [dataTag ++ ['1']] = ([Ev.token ['A']], false) ∧
      processLines
          (fun s => if s = ['1'] then some (SseRec.content ['A'])
            else if s = ['2'] then some (SseRec.content ['B']) else none)
          [dataTag ++ ['2']] = ([Ev.token ['B']], false) ∧
      (['x'] : Str) ≠ doneTag ∧
      (fun s => if s = ['1'] then some (SseRec.content ['A'])
        else if s = ['2'] then some (SseRec.content ['B']) else none) ['x'] =
        none ∧
      decodeStream
          (fun s => if s = ['1'] then some (SseRec.content ['A'])
            else if s = ['2'] then some (SseRec.content ['B']) else none)
          [streamOf ([dataTag ++ ['1']] ++ (dataTag ++ ['x']) :: [dataTag ++ ['2']])] =
        [Ev.token ['A']] ++ [Ev.token ['B']] ++ [Ev.complete] :=
  ⟨by decide, by decide, by decide, by decide, by decide,
    decodeStream_skips_malformed _ _ _ _ _ _ (by decide) (by decide) (by decide)
      (by decide) (by decide)⟩

/-- Witness for the done-record claim at a concrete stream with one valid
record, a structured done record, a further valid record and one more whole
chunk, none of which may be decoded past the done record. -/
theorem decodeStream_done_record_stops_witness :
    (∀ l ∈ [dataTag ++ ['1']] ++ (dataTag ++ ['d']) :: [dataTag ++ ['1']],
        recordOk l = true) ∧
      processLines
          (fun s => if s = ['1'] then some (SseRec.content ['A'])
            else if s = ['d'] then some SseRec.done else none)
          [dataTag ++ ['1']] = ([Ev.token ['A']], false) ∧
      (['d'] : Str) ≠ doneTag ∧
      (fun s => if s = ['1'] then some (SseRec.content ['A'])
        else if s = ['d'] then some SseRec.done else none) ['d'] =
        some SseRec.done ∧
      decodeStream
          (fun s => if s = ['1'] then some (SseRec.content ['A'])
            else if s = ['d'] then some SseRec.done else none)
          (streamOf ([dataTag ++ ['1']] ++ (dataTag ++ ['d']) :: [dataTag ++ ['1']]) ::
            [streamOf [dataTag ++ ['1']]]) =
        [Ev.token ['A']] ++ [Ev.complete] :=
  ⟨by decide, by decide, by decide, by decide,
    decodeStream_done_record_stops _ _ _ _ _ _ (by decide) (by decide)
      (by decide) (by decide)⟩

/-- Witness for the trailing-record claim at a concrete stream whose last,
well-formed record lacks the trailing separator. -/
theorem decodeStream_discards_trailing_witness :
    (∀ l ∈ [dataTag ++ ['1']] ++ [dataTag ++ ['2']], recordOk l = true) ∧
      processLines
          (fun s => if s = ['1'] then some (SseRec.content ['A'])
            else if s = ['2'] then some (SseRec.content ['B']) else none)
          [dataTag ++ ['1']] = ([Ev.token ['A']], false) ∧
      processLine
          (fun s => if s = ['1'] then some (SseRec.content ['A'])
            else if s = ['2'] then some (SseRec.content ['B']) else none)
          (dataTag ++ ['2']) = LineOut.emit (Ev.token ['B']) ∧
      decodeStream
          (fun s => if s = ['1'] then some (SseRec.content ['A'])
            else if s = ['2'] then some (SseRec.content ['B']) else none)
          [joinSep ([dataTag ++ ['1']] ++ [dataTag ++ ['2']])] =
        [Ev.token ['A']] ++ [Ev.complete] :=
  ⟨by decide, by decide, by decide,
    decodeStream_discards_trailing _ _ _ _ (Ev.token ['B']) (by decide)
      (by decide) (by decide)⟩

/-- Witness for the token-concatenation claim at a concrete two-token
stream ending in Done, started on an empty message list. -/
theorem streamed_content_is_token_concat_witness :
    (∀ m ∈ (⟨[], [], false, false, none, true, []⟩ : WState).messages,
        m.id ≠ ['9']) ∧
      ((∀ m ∈ (runStream ['9']
            ((⟨[], [], false, false, none, true, []⟩ : WState), false)
            ([Ev.token ['H', 'i'], Ev.token ['!']] ++ [Ev.complete])).1.messages,
          m.id = ['9'] →
            m.content = tokenConcat [Ev.token ['H', 'i'], Ev.token ['!']]) ∧
        ((∃ t, Ev.token t ∈ [Ev.token ['H', 'i'], Ev.token ['!']]) →
          ∃ m ∈ (runStream ['9']
              ((⟨[], [], false, false, none, true, []⟩ : WState), false)
              ([Ev.token ['H', 'i'], Ev.token ['!']] ++ [Ev.complete])).1.messages,
            m.id = ['9'])) :=
  ⟨by decide,
    streamed_content_is_token_concat ['9'] _ _ (by decide)⟩

/-- Witness for the mid-stream transport-error claim at a concrete
two-token stream interrupted by an error with no message text. -/
theorem transport_error_preserves_partial_content_witness :
    (∀ x ∈ (⟨[], [], true, false, none, false, []⟩ : WState).messages,
        x.id ≠ ['9']) ∧
      (runStream ['9']
          ((⟨[], [], true, false, none, false, []⟩ : WState), false)
          (([['H'], ['i']] : List Str).map Ev.token ++ [Ev.error none])).1 =
        { (⟨[], [], true, false, none, false, []⟩ : WState) with
            messages := [] ++ [tokenMsg ['9'] (([['H'], ['i']] : List Str).flatten)]
            loading := false
            error := some (jsOrStr none "Streaming failed.".data) } :=
  ⟨by decide,
    transport_error_preserves_partial_content ['9'] _ ['H'] [['i']] none
      (by decide)⟩

/-- Witness for the amended in-flight no-op claim at a concrete loading
state. -/
theorem handleSend_noop_while_loading_witness :
    (⟨[], ['q'], true, false, none, false, []⟩ : WState).loading = true ∧
      handleSend ['1'] none (⟨[], ['q'], true, false, none, false, []⟩ : WState) =
        { state := (⟨[], ['q'], true, false, none, false, []⟩ : WState)
          requestSent := false } :=
  ⟨by decide, handleSend_noop_while_loading ['1'] none _ (by decide)⟩

/-- Witness for the amended zero-scope claim at a concrete state with an
empty framework set and a nonempty input. -/
theorem sendButton_rejects_zero_scope_witness :
    (⟨[], ['h'], false, false, none, false, []⟩ : WState).selectedFrameworks =
        [] ∧
      sendButtonClick ['1'] (⟨[], ['h'], false, false, none, false, []⟩ : WState) =
        { state := (⟨[], ['h'], false, false, none, false, []⟩ : WState)
          requestSent := false } :=
  ⟨by decide, sendButton_rejects_zero_scope ['1'] _ (by decide)⟩

end ComplianceGPT
